import Mathlib

set_option maxRecDepth 8192

/-!
Shallow embedding of `src/blockchain.py` (a minimal proof-of-work blockchain).

Modelling conventions:

* The SHA-256 digest is abstracted as a parameter `sha : String → String`
  mapping the serialized block string to its hex digest.  All structural
  theorems hold for every `sha`; tamper-detection additionally assumes the
  digest is collision-free on the inputs involved (the spec's
  "cryptographic hash property" idealisation).
* Python floats appear only as the block timestamp, which participates in
  hashing solely through its `json.dumps` rendering; we model a timestamp
  directly as that rendered string.
* `time.time()` is nondeterministic, so constructors take the timestamp
  rendering as an explicit argument.
* The unbounded `while` loop of `proof_of_work` is modelled with explicit
  fuel, returning `none` when the loop has not yet terminated within the
  fuel; Python's in-place mutation of the block becomes explicit state
  passing.
* Python exceptions (e.g. indexing an empty list in `last_block`) are
  modelled as `Option.none`.
-/

/-- JSON-like payload data (`data` field of a block): null, booleans,
integer numbers, strings, arrays and objects.  Objects carry their entries
in insertion order, as Python dicts do. -/
inductive Json where
  | null
  | bool (b : Bool)
  | num (n : Int)
  | str (s : String)
  | arr (elems : List Json)
  | obj (entries : List (String × Json))

/-- Hex digit character for `n < 16`, lowercase, as produced by Python's
`\uXXXX` escapes. -/
def hexDigit (n : Nat) : Char :=
  if n < 10 then Char.ofNat (48 + n) else Char.ofNat (87 + n)

/-- Four-digit lowercase hex rendering of `n < 0x10000`. -/
def hex4 (n : Nat) : String :=
  String.mk [hexDigit (n / 4096 % 16), hexDigit (n / 256 % 16),
             hexDigit (n / 16 % 16), hexDigit (n % 16)]

/-- JSON escaping of a single character as done by `json.dumps` with its
default `ensure_ascii=True`: short escapes for the common control
characters, `\uXXXX` (with surrogate pairs above the BMP) for other
control and all non-ASCII characters. -/
def escapeChar (c : Char) : String :=
  if c = '"' then "\\\""
  else if c = '\\' then "\\\\"
  else if c = '\n' then "\\n"
  else if c = '\t' then "\\t"
  else if c = '\r' then "\\r"
  else if c.toNat = 8 then "\\b"
  else if c.toNat = 12 then "\\f"
  else if c.toNat < 32 then "\\u" ++ hex4 c.toNat
  else if c.toNat < 127 then String.singleton c
  else if c.toNat < 65536 then "\\u" ++ hex4 c.toNat
  else
    "\\u" ++ hex4 (55296 + (c.toNat - 65536) / 1024) ++
    "\\u" ++ hex4 (56320 + (c.toNat - 65536) % 1024)

/-- JSON escaping of a whole string (contents only, without the
surrounding quotes). -/
def escapeStr (s : String) : String :=
  String.join (s.data.map escapeChar)

/-- `json.dumps` rendering of a string value, quotes included. -/
def dumpStr (s : String) : String :=
  "\"" ++ escapeStr s ++ "\""

/-- Lexicographic comparison of character lists by code point; this is how
Python compares strings when `sorted` orders the keys of a dict. -/
def charListLe : List Char → List Char → Bool
  | [], _ => true
  | _ :: _, [] => false
  | a :: as, b :: bs =>
    if a.toNat < b.toNat then true
    else if b.toNat < a.toNat then false
    else charListLe as bs

/-- Lexicographic `≤` on strings by code point (Python string order). -/
def strLe (a b : String) : Bool := charListLe a.data b.data

/-- Ordering of rendered object entries by key only, as used when
`json.dumps(…, sort_keys=True)` sorts the items of a dict. -/
abbrev entryLe (p q : String × String) : Prop := strLe p.1 q.1 = true

/-- Stable sort of rendered object entries by key, modelling the
`sort_keys=True` ordering of `json.dumps` (Python's stable `sorted` by
key). -/
def sortEntries (l : List (String × String)) : List (String × String) :=
  List.insertionSort entryLe l

/-- Rendering of one already-serialized object entry: `"key": value` with
the key JSON-escaped, using the default `json.dumps` separators. -/
def renderEntry (p : String × String) : String :=
  dumpStr p.1 ++ ": " ++ p.2

/-- Comma-space joining as produced by the default `json.dumps`
item separator. -/
def joinComma : List String → String
  | [] => ""
  | [s] => s
  | s :: rest => s ++ ", " ++ joinComma rest

mutual

/-- `json.dumps(v, sort_keys=True)` for a payload value: canonical
serialization with object keys sorted ascending and default separators. -/
def Json.dumps : Json → String
  | .null => "null"
  | .bool true => "true"
  | .bool false => "false"
  | .num n => toString n
  | .str s => dumpStr s
  | .arr es => "[" ++ joinComma (dumpsElems es) ++ "]"
  | .obj kvs => "\x7b" ++ joinComma ((sortEntries (dumpsEntries kvs)).map renderEntry) ++ "\x7d"

/-- Serializes each array element in order. -/
def dumpsElems : List Json → List String
  | [] => []
  | v :: vs => v.dumps :: dumpsElems vs

/-- Serializes each object value, keeping the (key, rendered value) pairs
in insertion order; sorting by key happens afterwards. -/
def dumpsEntries : List (String × Json) → List (String × String)
  | [] => []
  | (k, v) :: kvs => (k, v.dumps) :: dumpsEntries kvs

end

/-- A block: index, timestamp (see module comment: modelled by its JSON
rendering), transaction data, hash of the previous block, nonce and the
block's own stored hash. -/
structure Block where
  index : Nat
  timestamp : String
  data : Json
  previous_hash : String
  nonce : Nat
  hash : String

/-- Fixed part of the serialized block dictionary that follows the
rendered `data` value: the `index`, `nonce`, `previous_hash
` and `timestamp` entries. -/
def serializeTail (b : Block) : String :=
  ", \"index\": " ++ toString b.index ++
  ", \"nonce\": " ++ toString b.nonce ++
  ", \"previous_hash\": " ++ dumpStr b.previous_hash ++
  ", \"timestamp\": " ++ b.timestamp ++ "\x7d"

/-- `json.dumps(block_dict, sort_keys=True)` of the five-field dictionary
built by `compute_hash`; the keys appear in their sorted order
`data < index < nonce < previous_hash < timestamp`. -/
def serializeBlock (b : Block) : String :=
  "\x7b\"data\": " ++ b.data.dumps ++ serializeTail b

/-- `Block.compute_hash`: the digest of the canonical serialization of the
five fields (the stored `hash` field does not participate). -/
def compute_hash (sha : String → String) (b : Block) : String :=
  sha (serializeBlock b)

/-- `Block.__init__(index, data, previous_hash)`: timestamp set at
construction, nonce 0, hash computed immediately over the fresh fields. -/
def Block.new (sha : String → String) (index : Nat) (ts : String)
    (data : Json) (previous_hash : String) : Block :=
  let b : Block :=
    { index := index, timestamp := ts, data := data,
      previous_hash := previous_hash, nonce := 0, hash := "" }
  { b with hash := compute_hash sha b }

/-- The class-level mining difficulty constant of `Blockchain`. -/
def difficulty : Nat := 4

/-- Boolean prefix test on character lists. -/
def isPrefixOfChars : List Char → List Char → Bool
  | [], _ => true
  | _ :: _, [] => false
  | a :: as, b :: bs => a == b && isPrefixOfChars as bs

/-- `str.startswith(p)`. -/
def strStartsWith (s p : String) : Bool := isPrefixOfChars p.data s.data

/-- The string `"0" * n` of required leading zero characters. -/
def zerosOf (n : Nat) : String := String.mk (List.replicate n '0')

/-- One iteration of the mining loop body: `block.nonce += 1;
block.hash = block.compute_hash()`. -/
def powStep (sha : String → String) (b : Block) : Block :=
  let b' : Block := { b with nonce := b.nonce + 1 }
  { b' with hash := compute_hash sha b' }

/-- `Blockchain.proof_of_work(block)`: loop while the stored hash does not
start with `difficulty` zeros, incrementing the nonce and recomputing the
hash.  The fuel bounds how many loop iterations we are willing to unfold;
`none` means the loop has not terminated within the fuel. -/
def proof_of_work (sha : String → String) : Nat → Block → Option Block
  | 0, b =>
    if strStartsWith b.hash (zerosOf difficulty) = true then some b else none
  | fuel + 1, b =>
    if strStartsWith b.hash (zerosOf difficulty) = true then some b
    else proof_of_work sha fuel (powStep sha b)

/-- The chain: an ordered list of blocks. -/
structure Blockchain where
  chain : List Block

/-- The sentinel payload of the genesis block. -/
def genesisData : Json := .obj [("message", .str "Genesis block")]

/-- `Blockchain.create_genesis_block` merged with `__init__`: a fresh
chain holds exactly the genesis block `Block(0, {"message": "Genesis
block"}, "0")`. -/
def Blockchain.create (sha : String → String) (ts : String) : Blockchain :=
  ⟨[Block.new sha 0 ts genesisData "0"]⟩

/-- `Blockchain.last_block` (`self.chain[-1]`); `none` models the
exception raised on an empty chain. -/
def Blockchain.last_block (bc : Blockchain) : Option Block :=
  bc.chain.getLast?

/-- `Blockchain.add_block(data)`: build `Block(len(chain), data,
last_block.hash)`, run proof of work on it, append it, return it.  `none`
when the chain is empty (exception) or the mining fuel runs out. -/
def Blockchain.add_block (sha : String → String) (fuel : Nat) (ts : String)
    (data : Json) (bc : Blockchain) : Option (Blockchain × Block) :=
  match bc.last_block with
  | none => none
  | some last =>
    let nb := Block.new sha bc.chain.length ts data last.hash
    match proof_of_work sha fuel nb with
    | none => none
    | some mined => some (⟨bc.chain ++ [mined]⟩, mined)

/-- The three per-block checks of `Blockchain.is_valid` for a block
`cur` whose predecessor in the chain is `prev`, in source order:
stored hash matches the recomputed hash, linkage, proof-of-work. -/
def checkBlock (sha : String → String) (cur prev : Block) : Bool :=
  (cur.hash == compute_hash sha cur) &&
  (cur.previous_hash == prev.hash) &&
  strStartsWith cur.hash (zerosOf difficulty)

/-- The validation loop from index 1 onward: `prev` is the block before
the remaining list `l`. -/
def validFrom (sha : String → String) : Block → List Block → Bool
  | _, [] => true
  | prev, cur :: rest => checkBlock sha cur prev && validFrom sha cur rest

/-- `Blockchain.is_valid`: runs the three checks for every block from
index 1 on; vacuously true for chains of length ≤ 1. -/
def Blockchain.is_valid (sha : String → String) (bc : Blockchain) : Bool :=
  match bc.chain with
  | [] => true
  | b :: rest => validFrom sha b rest

/-- Helper for `Blockchain.setData`: replace the `data` field of the
block at position `j`, leaving every other block untouched. -/
def setDataAux (d : Json) : Nat → List Block → List Block
  | _, [] => []
  | 0, b :: rest => { b with data := d } :: rest
  | j + 1, b :: rest => b :: setDataAux d j rest

/-- The external tamper probe of the demo driver:
`blockchain.chain[j].data = d`, mutating a stored payload in place
without recomputing the block's hash. -/
def Blockchain.setData (bc : Blockchain) (j : Nat) (d : Json) : Blockchain :=
  ⟨setDataAux d j bc.chain⟩

/-- Chains produced by the engine itself: a fresh chain (constructor plus
genesis) followed by any finite number of successful `add_block` calls,
with no external mutation. -/
inductive Reachable (sha : String → String) : Blockchain → Prop where
  | created (ts : String) : Reachable sha (Blockchain.create sha ts)
  | appended {bc bc' : Blockchain} {b : Block} (fuel : Nat) (ts : String) (d : Json)
      (hr : Reachable sha bc)
      (h : Blockchain.add_block sha fuel ts d bc = some (bc', b)) :
      Reachable sha bc'

/-- Concrete digest stand-in used to instantiate theorems on closed
inputs: injective, and every digest satisfies the difficulty predicate,
so mining terminates at nonce 0. -/
def sha0 (s : String) : String := "0000" ++ s

/-- Concrete genesis block under `sha0`. -/
def wG : Block := Block.new sha0 0 "100.5" genesisData "0"

/-- Concrete successor block under `sha0`, linked to `wG`. -/
def wB1 : Block := Block.new sha0 1 "101.5" (.num 7) wG.hash

/-- Concrete fresh chain under `sha0`. -/
def wChain1 : Blockchain := Blockchain.create sha0 "100.5"

/-- Concrete two-block chain under `sha0`. -/
def wChain2 : Blockchain := ⟨[wG, wB1]⟩

/-- A block whose stored hash already satisfies the difficulty predicate
but does not match its recomputed hash. -/
def wBad : Block :=
  { index := 1, timestamp := "1.5", data := .num 7, previous_hash := "h",
    nonce := 0, hash := "0000" }

/-! ### Helper lemmas about strings and the key order -/

theorem charEq_of_toNat_eq {a b : Char} (h : a.toNat = b.toNat) : a = b :=
  Char.eq_of_val_eq (UInt32.ext h)

theorem string_data_append (a b : String) : (a ++ b).data = a.data ++ b.data := rfl

theorem string_append_cancel_mid {a x y t : String} (h : a ++ x ++ t = a ++ y ++ t) :
    x = y := by
  have hd : a.data ++ x.data ++ t.data = a.data ++ y.data ++ t.data := by
    have := congrArg String.data h
    simpa [string_data_append] using this
  have hx : x.data = y.data :=
    List.append_cancel_left (List.append_cancel_right hd)
  exact String.ext hx

theorem sha0_inj : ∀ s t : String, sha0 s = sha0 t → s = t := by
  intro s t h
  have hd : "0000".data ++ s.data = "0000".data ++ t.data := by
    have := congrArg String.data h
    simpa [sha0, string_data_append] using this
  exact String.ext (List.append_cancel_left hd)

theorem charListLe_total : ∀ a b : List Char, charListLe a b = true ∨ charListLe b a = true
  | [], _ => Or.inl rfl
  | _ :: _, [] => Or.inr rfl
  | a :: as, b :: bs => by
    simp only [charListLe]
    rcases Nat.lt_trichotomy a.toNat b.toNat with h | h | h
    · left; simp [h]
    · have h1 : ¬ a.toNat < b.toNat := by omega
      have h2 : ¬ b.toNat < a.toNat := by omega
      simpa [h1, h2] using charListLe_total as bs
    · right; simp [h]

theorem charListLe_trans : ∀ {a b c : List Char},
    charListLe a b = true → charListLe b c = true → charListLe a c = true
  | [], _, _, _, _ => rfl
  | _ :: _, [], _, hab, _ => by simp [charListLe] at hab
  | _ :: _, _ :: _, [], _, hbc => by simp [charListLe] at hbc
  | a :: as, b :: bs, c :: cs, hab, hbc => by
    simp only [charListLe] at hab hbc ⊢
    by_cases h1 : a.toNat < b.toNat
    · by_cases h2 : b.toNat < c.toNat
      · simp [show a.toNat < c.toNat by omega]
      · by_cases h3 : c.toNat < b.toNat
        · simp [h2, h3] at hbc
        · simp [show a.toNat < c.toNat by omega]
    · by_cases h4 : b.toNat < a.toNat
      · simp [h1, h4] at hab
      · by_cases h2 : b.toNat < c.toNat
        · simp [show a.toNat < c.toNat by omega]
        · by_cases h3 : c.toNat < b.toNat
          · simp [h2, h3] at hbc
          · have e1 : ¬ a.toNat < c.toNat := by omega
            have e2 : ¬ c.toNat < a.toNat := by omega
            rw [if_neg h1, if_neg h4] at hab
            rw [if_neg h2, if_neg h3] at hbc
            rw [if_neg e1, if_neg e2]
            exact charListLe_trans hab hbc

theorem charListLe_antisymm : ∀ {a b : List Char},
    charListLe a b = true → charListLe b a = true → a = b
  | [], [], _, _ => rfl
  | [], _ :: _, _, hba => by simp [charListLe] at hba
  | _ :: _, [], hab, _ => by simp [charListLe] at hab
  | a :: as, b :: bs, hab, hba => by
    simp only [charListLe] at hab hba
    rcases Nat.lt_trichotomy a.toNat b.toNat with h | h | h
    · exfalso
      simp [show ¬ b.toNat < a.toNat by omega, show a.toNat < b.toNat from h] at hba
    · have h1 : ¬ a.toNat < b.toNat := by omega
      have h2 : ¬ b.toNat < a.toNat := by omega
      simp [h1, h2] at hab hba
      have : as = bs := charListLe_antisymm hab hba
      rw [charEq_of_toNat_eq h, this]
    · exfalso
      simp [show ¬ a.toNat < b.toNat by omega, show b.toNat < a.toNat from h] at hab

/-! ### Sorting of object entries -/

instance : IsTotal (String × String) entryLe :=
  ⟨fun p q => charListLe_total p.1.data q.1.data⟩

instance : IsTrans (String × String) entryLe :=
  ⟨fun _ _ _ hpq hqr => charListLe_trans hpq hqr⟩

/-- Strict version of the entry order, used to show that a sorted list of
entries with pairwise distinct keys is unique. -/
def entryLt (p q : String × String) : Prop := entryLe p q ∧ p.1 ≠ q.1

instance : IsAntisymm (String × String) entryLt :=
  ⟨fun p q hpq hqp =>
    absurd (String.ext (charListLe_antisymm hpq.1 hqp.1)) hpq.2⟩

theorem sortEntries_perm (l : List (String × String)) : List.Perm (sortEntries l) l :=
  List.perm_insertionSort entryLe l

theorem sortEntries_sorted (l : List (String × String)) :
    List.Sorted entryLe (sortEntries l) :=
  List.sorted_insertionSort entryLe l

theorem pairwise_and {α : Type} {R S : α → α → Prop} :
    ∀ {l : List α}, List.Pairwise R l → List.Pairwise S l →
      List.Pairwise (fun a b => R a b ∧ S a b) l
  | [], _, _ => List.Pairwise.nil
  | _ :: _, List.Pairwise.cons hR hRs, List.Pairwise.cons hS hSs =>
    List.Pairwise.cons (fun b hb => ⟨hR b hb, hS b hb⟩) (pairwise_and hRs hSs)

theorem sorted_strict {l : List (String × String)}
    (hs : List.Sorted entryLe l) (hn : (l.map Prod.fst).Nodup) :
    List.Sorted entryLt l := by
  have hp : List.Pairwise (fun p q : String × String => p.1 ≠ q.1) l :=
    List.pairwise_map.mp hn
  exact pairwise_and hs hp

theorem sortEntries_eq_of_perm {l₁ l₂ : List (String × String)}
    (hp : List.Perm l₁ l₂) (hn : (l₁.map Prod.fst).Nodup) :
    sortEntries l₁ = sortEntries l₂ := by
  have p1 := sortEntries_perm l₁
  have p2 := sortEntries_perm l₂
  have hn₂ : (l₂.map Prod.fst).Nodup := ((hp.map Prod.fst).nodup_iff).mp hn
  have hn₁s : ((sortEntries l₁).map Prod.fst).Nodup :=
    ((p1.map Prod.fst).nodup_iff).mpr hn
  have hn₂s : ((sortEntries l₂).map Prod.fst).Nodup :=
    ((p2.map Prod.fst).nodup_iff).mpr hn₂
  exact List.eq_of_perm_of_sorted (p1.trans (hp.trans p2.symm))
    (sorted_strict (sortEntries_sorted l₁) hn₁s)
    (sorted_strict (sortEntries_sorted l₂) hn₂s)

theorem dumpsEntries_eq_map (kvs : List (String × Json)) :
    dumpsEntries kvs = kvs.map (fun p => (p.1, p.2.dumps)) := by
  induction kvs with
  | nil => rfl
  | cons p rest ih =>
    cases p
    simp only [dumpsEntries, List.map_cons, ih]

theorem dumps_obj_perm {kvs1 kvs2 : List (String × Json)}
    (hp : List.Perm kvs1 kvs2) (hn : (kvs1.map Prod.fst).Nodup) :
    Json.dumps (.obj kvs1) = Json.dumps (.obj kvs2) := by
  have hperm : List.Perm (dumpsEntries kvs1) (dumpsEntries kvs2) := by
    rw [dumpsEntries_eq_map, dumpsEntries_eq_map]
    exact hp.map _
  have hnd : ((dumpsEntries kvs1).map Prod.fst).Nodup := by
    rw [dumpsEntries_eq_map, List.map_map]
    simpa [Function.comp_def] using hn
  simp only [Json.dumps]
  rw [sortEntries_eq_of_perm hperm hnd]

/-! ### Mining lemmas -/

theorem powStep_hash (sha : String → String) (b : Block) :
    (powStep sha b).hash = compute_hash sha (powStep sha b) := rfl

theorem Block.new_hash (sha : String → String) (i : Nat) (ts : String)
    (d : Json) (p : String) :
    (Block.new sha i ts d p).hash = compute_hash sha (Block.new sha i ts d p) := rfl

theorem pow_some {sha : String → String} :
    ∀ {fuel : Nat} {b b' : Block}, proof_of_work sha fuel b = some b' →
      strStartsWith b'.hash (zerosOf difficulty) = true ∧
      (b' = b ∨ b'.hash = compute_hash sha b') ∧
      b'.index = b.index ∧ b'.timestamp = b.timestamp ∧
      b'.data = b.data ∧ b'.previous_hash = b.previous_hash := by
  intro fuel
  induction fuel with
  | zero =>
    intro b b' h
    by_cases hc : strStartsWith b.hash (zerosOf difficulty) = true
    · simp only [proof_of_work, hc, if_true, Option.some.injEq] at h
      subst h
      exact ⟨hc, Or.inl rfl, rfl, rfl, rfl, rfl⟩
    · simp [proof_of_work, hc] at h
  | succ n ih =>
    intro b b' h
    by_cases hc : strStartsWith b.hash (zerosOf difficulty) = true
    · simp only [proof_of_work, hc, if_true, Option.some.injEq] at h
      subst h
      exact ⟨hc, Or.inl rfl, rfl, rfl, rfl, rfl⟩
    · simp only [proof_of_work, hc, if_false, Bool.false_eq_true, ite_false] at h
      obtain ⟨h1, h2, h3, h4, h5, h6⟩ := ih h
      refine ⟨h1, ?_, h3, h4, h5, h6⟩
      right
      rcases h2 with he | he
      · rw [he]; exact powStep_hash sha b
      · exact he

theorem pow_hash_consistent {sha : String → String} {fuel : Nat} {b b' : Block}
    (h : proof_of_work sha fuel b = some b')
    (hb : b.hash = compute_hash sha b) : b'.hash = compute_hash sha b' := by
  rcases (pow_some h).2.1 with he | he
  · rw [he]; exact hb
  · exact he

/-! ### Validation lemmas -/

theorem validFrom_eq_true_iff (sha : String → String) :
    ∀ (l : List Block) (p : Block),
      validFrom sha p l = true ↔
        ∀ i (h : i < l.length),
          checkBlock sha (l.get ⟨i, h⟩) ((p :: l).get ⟨i, Nat.lt_succ_of_lt h⟩) = true := by
  intro l
  induction l with
  | nil =>
    intro p
    simp [validFrom]
  | cons cur rest ih =>
    intro p
    simp only [validFrom, Bool.and_eq_true]
    constructor
    · rintro ⟨hc, hv⟩ i h
      match i with
      | 0 => exact hc
      | j + 1 =>
        exact (ih cur).mp hv j (by simpa using h)
    · intro hall
      refine ⟨hall 0 (by simp), (ih cur).mpr ?_⟩
      intro j h
      exact hall (j + 1) (by simpa using h)

theorem is_valid_checks_iff (sha : String → String) (bc : Blockchain) :
    bc.is_valid sha = true ↔
      ∀ i (h : i < bc.chain.length), 1 ≤ i →
        checkBlock sha (bc.chain.get ⟨i, h⟩)
          (bc.chain.get ⟨i - 1, by omega⟩) = true := by
  cases hc : bc.chain with
  | nil =>
    simp only [Blockchain.is_valid, hc]
    constructor
    · intro _ i h
      simp at h
    · intro _
      trivial
  | cons p l =>
    simp only [Blockchain.is_valid, hc]
    rw [validFrom_eq_true_iff sha l p]
    constructor
    · intro hall i h h1
      match i, h1 with
      | j + 1, _ =>
        have hj : j < l.length := by simpa using h
        exact hall j hj
    · intro hall j hj
      exact hall (j + 1) (by simpa using hj) (by omega)

theorem validFrom_hash_only (sha : String → String) (p q : Block)
    (l : List Block) (hh : p.hash = q.hash) :
    validFrom sha p l = validFrom sha q l := by
  cases l with
  | nil => rfl
  | cons cur rest => simp [validFrom, checkBlock, hh]

theorem validFrom_append (sha : String → String) :
    ∀ (l : List Block) (p : Block) (nb : Block),
      validFrom sha p (l ++ [nb]) =
        (validFrom sha p l &&
          checkBlock sha nb ((p :: l).getLast (List.cons_ne_nil p l))) := by
  intro l
  induction l with
  | nil =>
    intro p nb
    simp [validFrom, List.getLast]
  | cons cur rest ih =>
    intro p nb
    have hg : (p :: cur :: rest).getLast (List.cons_ne_nil p (cur :: rest)) =
        (cur :: rest).getLast (List.cons_ne_nil cur rest) :=
      List.getLast_cons (List.cons_ne_nil cur rest)
    simp only [List.cons_append, validFrom, Bool.and_assoc, hg, List.append_eq]
    rw [ih cur]

theorem add_block_inv {sha : String → String} {fuel : Nat} {ts : String}
    {d : Json} {bc bc' : Blockchain} {nb : Block}
    (h : Blockchain.add_block sha fuel ts d bc = some (bc', nb)) :
    ∃ last, bc.last_block = some last ∧
      proof_of_work sha fuel (Block.new sha bc.chain.length ts d last.hash) = some nb ∧
      bc' = ⟨bc.chain ++ [nb]⟩ := by
  unfold Blockchain.add_block at h
  cases hl : bc.last_block with
  | none => rw [hl] at h; simp at h
  | some last =>
    rw [hl] at h
    simp only at h
    cases hp : proof_of_work sha fuel (Block.new sha bc.chain.length ts d last.hash) with
    | none => rw [hp] at h; simp at h
    | some mined =>
      rw [hp] at h
      simp only [Option.some.injEq, Prod.mk.injEq] at h
      obtain ⟨h1, h2⟩ := h
      subst h2
      exact ⟨last, rfl, hp, h1.symm⟩

theorem last_block_cons (bc : Blockchain) (p : Block) (l : List Block)
    (hc : bc.chain = p :: l) :
    bc.last_block = some ((p :: l).getLast (List.cons_ne_nil p l)) := by
  unfold Blockchain.last_block
  rw [hc]
  exact List.getLast?_eq_getLast_of_ne_nil _

theorem setDataAux_eq_set (d : Json) :
    ∀ (l : List Block) (j : Nat) (h : j < l.length),
      setDataAux d j l = l.set j { l.get ⟨j, h⟩ with data := d } := by
  intro l
  induction l with
  | nil => intro j h; simp at h
  | cons b rest ih =>
    intro j h
    cases j with
    | zero => rfl
    | succ k =>
      have hk : k < rest.length := by simpa using h
      simp only [setDataAux, List.set, ih k hk]
      rfl

theorem checkBlock_eq_true_iff (sha : String → String) (cur prev : Block) :
    checkBlock sha cur prev = true ↔
      (cur.hash = compute_hash sha cur ∧
       cur.previous_hash = prev.hash ∧
       strStartsWith cur.hash (zerosOf difficulty) = true) := by
  simp [checkBlock, Bool.and_assoc]

theorem Block.new_index (sha : String → String) (i : Nat) (ts : String)
    (d : Json) (p : String) : (Block.new sha i ts d p).index = i := rfl

theorem Block.new_previous_hash (sha : String → String) (i : Nat) (ts : String)
    (d : Json) (p : String) : (Block.new sha i ts d p).previous_hash = p := rfl

theorem setDataAux_length (d : Json) :
    ∀ (l : List Block) (j : Nat), (setDataAux d j l).length = l.length
  | [], 0 => rfl
  | [], _ + 1 => rfl
  | _ :: _, 0 => rfl
  | b :: rest, j + 1 => by
    simp only [setDataAux, List.length_cons, setDataAux_length d rest j]

theorem setDataAux_get_self (d : Json) :
    ∀ (l : List Block) (j : Nat) (h : j < l.length)
      (h' : j < (setDataAux d j l).length),
      (setDataAux d j l).get ⟨j, h'⟩ = { l.get ⟨j, h⟩ with data := d }
  | [], j, h, _ => absurd h (by simp)
  | _ :: _, 0, _, _ => rfl
  | b :: rest, j + 1, h, h' =>
    setDataAux_get_self d rest j (by simpa using h)
      (by simpa [setDataAux] using h')

/-! ### Claim theorems -/

/-- C1: `is_valid` returns true if and only if, for every block at index
`i ≥ 1` in the chain, the stored hash equals the recomputed
`compute_hash`, the stored `previous_hash` equals the previous block's
hash, and the hash starts with `difficulty` zero characters; the genesis
block at index 0 is not checked, and the check is a total boolean
predicate (modelling that no exception is raised on a broken chain). -/
theorem is_valid_iff_all_checks (sha : String → String) (bc : Blockchain) :
    bc.is_valid sha = true ↔
      ∀ i (h : i < bc.chain.length), 1 ≤ i →
        ((bc.chain.get ⟨i, h⟩).hash = compute_hash sha (bc.chain.get ⟨i, h⟩) ∧
         (bc.chain.get ⟨i, h⟩).previous_hash =
           (bc.chain.get ⟨i - 1, by omega⟩).hash ∧
         strStartsWith (bc.chain.get ⟨i, h⟩).hash (zerosOf difficulty) = true) := by
  rw [is_valid_checks_iff]
  refine forall_congr' fun i => forall_congr' fun h => imp_congr_right fun _ => ?_
  exact checkBlock_eq_true_iff sha _ _

/-- Witness for C1: on the concrete two-block chain the equivalence
yields the linkage of block 1 to the genesis hash. -/
theorem is_valid_iff_all_checks_witness :
    (wChain2.chain.get ⟨1, by decide⟩).previous_hash =
      (wChain2.chain.get ⟨0, by decide⟩).hash :=
  ((is_valid_iff_all_checks sha0 wChain2).mp (by decide) 1 (by decide)
    (by decide)).2.1

/-- C7: a freshly constructed chain consists of exactly the genesis block
`Block(0, {"message": "Genesis block"}, "0")`, whose index is 0 and
previous_hash is "0", and `is_valid` on the fresh chain returns true. -/
theorem create_spec (sha : String → String) (ts : String) :
    (Blockchain.create sha ts).chain = [Block.new sha 0 ts genesisData "0"] ∧
    (Block.new sha 0 ts genesisData "0").index = 0 ∧
    (Block.new sha 0 ts genesisData "0").previous_hash = "0" ∧
    (Block.new sha 0 ts genesisData "0").data = genesisData ∧
    (Blockchain.create sha ts).is_valid sha = true :=
  ⟨rfl, rfl, rfl, rfl, rfl⟩

/-- Witness for C7 at the concrete digest and timestamp. -/
theorem create_spec_witness :
    wChain1.chain = [wG] ∧ wG.index = 0 ∧ wG.previous_hash = "0" ∧
    wG.data = genesisData ∧ wChain1.is_valid sha0 = true :=
  create_spec sha0 "100.5"

/-- C8: the result of `is_valid` does not depend on the genesis block's
own integrity: two chains that differ only in block 0 — same stored
hash, but possibly different payload, nonce, or hash/compute_hash
consistency — validate identically, because the genesis block is never
hash-checked or PoW-checked. -/
theorem is_valid_ignores_genesis_integrity (sha : String → String)
    (g g' : Block) (rest : List Block) (hh : g.hash = g'.hash) :
    Blockchain.is_valid sha ⟨g :: rest⟩ = Blockchain.is_valid sha ⟨g' :: rest⟩ :=
  validFrom_hash_only sha g g' rest hh

/-- Witness for C8: replacing the genesis payload (hash field kept)
leaves validation unchanged on a concrete chain. -/
theorem is_valid_ignores_genesis_integrity_witness :
    Blockchain.is_valid sha0 ⟨[wG, wB1]⟩ =
      Blockchain.is_valid sha0 ⟨[{ wG with data := Json.null }, wB1]⟩ :=
  is_valid_ignores_genesis_integrity sha0 wG { wG with data := Json.null }
    [wB1] rfl

/-- C9: `last_block` on a chain with zero blocks fails (the raised
exception is modelled as `none`), and on every non-empty chain it
returns the last block of the sequence — the most recently appended
one, since `add_block` appends at the end. -/
theorem last_block_spec (bc : Blockchain) :
    (bc.chain = [] → bc.last_block = none) ∧
    ∀ h : bc.chain ≠ [], bc.last_block = some (bc.chain.getLast h) := by
  constructor
  · intro h
    show bc.chain.getLast? = none
    rw [h]
    rfl
  · intro h
    exact List.getLast?_eq_getLast_of_ne_nil h

/-- Witness for C9: the empty chain fails, and the concrete two-block
chain returns its last block. -/
theorem last_block_spec_witness :
    (Blockchain.mk []).last_block = none ∧
    wChain2.last_block = some (wChain2.chain.getLast (List.cons_ne_nil wG [wB1])) :=
  ⟨(last_block_spec ⟨[]⟩).1 rfl,
   (last_block_spec wChain2).2 (List.cons_ne_nil wG [wB1])⟩

/-- C10: if the block's stored hash already starts with `difficulty`
zero characters when `proof_of_work` is entered, the loop body never
runs: the block is returned unchanged (nonce and hash unmodified),
whatever the fuel; in particular a sealed block may keep nonce 0,
because the loop tests the predicate before the first increment. -/
theorem pow_returns_immediately (sha : String → String) (fuel : Nat)
    (b : Block) (h : strStartsWith b.hash (zerosOf difficulty) = true) :
    proof_of_work sha fuel b = some b := by
  cases fuel <;> simp [proof_of_work, h]

/-- Witness for C10 at a concrete block with nonce 0 whose stored hash
is exactly four zeros. -/
theorem pow_returns_immediately_witness :
    strStartsWith wBad.hash (zerosOf difficulty) = true ∧
    proof_of_work sha0 5 wBad = some wBad ∧ wBad.nonce = 0 :=
  ⟨by decide, pow_returns_immediately sha0 5 wBad (by decide), rfl⟩

/-- C3: a successful `add_block` constructs its new block with index
equal to the chain length before the call and previous_hash equal to the
hash of the previous tail block, appends exactly the returned block at
the end of the sequence, and returns it. -/
theorem add_block_spec (sha : String → String) (fuel : Nat) (ts : String)
    (d : Json) (bc bc' : Blockchain) (nb tl : Block)
    (h : Blockchain.add_block sha fuel ts d bc = some (bc', nb))
    (hl : bc.last_block = some tl) :
    nb.index = bc.chain.length ∧ nb.previous_hash = tl.hash ∧
    bc'.chain = bc.chain ++ [nb] := by
  obtain ⟨last, hl', hp, hbc⟩ := add_block_inv h
  rw [hl] at hl'
  injection hl' with hlast
  obtain ⟨_, _, h3, _, _, h6⟩ := pow_some hp
  subst hbc
  subst hlast
  refine ⟨?_, ?_, rfl⟩
  · rw [h3, Block.new_index]
  · rw [h6, Block.new_previous_hash]

/-- Witness for C3: appending to the concrete fresh chain produces the
expected index, linkage and appended sequence. -/
theorem add_block_spec_witness :
    wB1.index = wChain1.chain.length ∧ wB1.previous_hash = wG.hash ∧
    wChain2.chain = wChain1.chain ++ [wB1] :=
  add_block_spec sha0 1 "101.5" (.num 7) wChain1 wChain2 wB1 wG rfl rfl

/-- Counterexample to C4 as stated: `proof_of_work` checks the
difficulty predicate before recomputing anything, so a block entering
with a stored hash that already starts with `difficulty` zeros is
returned as-is even when that hash does not equal `compute_hash` of the
block's current fields. -/
theorem pow_stale_hash_counterexample :
    proof_of_work sha0 0 wBad = some wBad ∧
    ¬ (wBad.hash = compute_hash sha0 wBad) :=
  ⟨rfl, by decide⟩

/-- C4 (amended): when `proof_of_work` returns, the returned block's
hash starts with `difficulty` zero characters and is the value the
source function returns (`block.hash` of the final state); it
additionally equals `compute_hash()` of the block's current fields
whenever the stored hash was consistent with the fields at entry — as
is the case for every block `add_block` passes in — and in particular
every block returned by `add_block` satisfies both properties. -/
theorem pow_spec (sha : String → String) :
    (∀ fuel b b', proof_of_work sha fuel b = some b' →
        strStartsWith b'.hash (zerosOf difficulty) = true ∧
        (b.hash = compute_hash sha b → b'.hash = compute_hash sha b')) ∧
    (∀ fuel ts d bc bc' nb,
        Blockchain.add_block sha fuel ts d bc = some (bc', nb) →
        strStartsWith nb.hash (zerosOf difficulty) = true ∧
        nb.hash = compute_hash sha nb) := by
  constructor
  · intro fuel b b' h
    exact ⟨(pow_some h).1, fun hb => pow_hash_consistent h hb⟩
  · intro fuel ts d bc bc' nb h
    obtain ⟨last, _, hp, _⟩ := add_block_inv h
    exact ⟨(pow_some hp).1, pow_hash_consistent hp (Block.new_hash sha _ _ _ _)⟩

/-- Witness for C4 (amended) at a concrete mined block. -/
theorem pow_spec_witness :
    strStartsWith wB1.hash (zerosOf difficulty) = true ∧
    wB1.hash = compute_hash sha0 wB1 :=
  ⟨((pow_spec sha0).1 1 wB1 wB1 rfl).1, ((pow_spec sha0).1 1 wB1 wB1 rfl).2 rfl⟩

/-- C5: every chain obtained by construction (genesis creation) followed
by any finite sequence of successful `add_block` calls and no external
mutation validates: `is_valid` returns true, block 0 is the genesis
block, and every block at index `i ≥ 1` stores the hash of its
predecessor as `previous_hash`. -/
theorem reachable_is_valid (sha : String → String) (bc : Blockchain)
    (hr : Reachable sha bc) :
    bc.is_valid sha = true ∧
    (∃ ts, bc.chain.head? = some (Block.new sha 0 ts genesisData "0")) ∧
    ∀ i (h : i < bc.chain.length), 1 ≤ i →
      (bc.chain.get ⟨i, h⟩).previous_hash =
        (bc.chain.get ⟨i - 1, by omega⟩).hash := by
  have main : bc.is_valid sha = true ∧
      ∃ ts, bc.chain.head? = some (Block.new sha 0 ts genesisData "0") := by
    induction hr with
    | created ts => exact ⟨rfl, ts, rfl⟩
    | @appended bc2 bc2' nb fuel ts d hr2 h ih =>
      obtain ⟨hv, ts0, hh⟩ := ih
      obtain ⟨last, hl, hp, hbc⟩ := add_block_inv h
      cases hchain : bc2.chain with
      | nil => rw [hchain] at hh; simp at hh
      | cons p l =>
        have hlast := last_block_cons bc2 p l hchain
        rw [hl] at hlast
        injection hlast with hlast'
        subst hbc
        have hv' : validFrom sha p l = true := by
          have hv2 := hv
          unfold Blockchain.is_valid at hv2
          rw [hchain] at hv2
          exact hv2
        obtain ⟨hz, _, _, _, _, hprev⟩ := pow_some hp
        have hnb : nb.hash = compute_hash sha nb :=
          pow_hash_consistent hp (Block.new_hash sha _ _ _ _)
        rw [Block.new_previous_hash] at hprev
        rw [hlast'] at hprev
        constructor
        · show Blockchain.is_valid sha ⟨bc2.chain ++ [nb]⟩ = true
          have hck : checkBlock sha nb ((p :: l).getLast (List.cons_ne_nil p l)) = true := by
            rw [checkBlock_eq_true_iff]
            exact ⟨hnb, hprev, hz⟩
          have : Blockchain.is_valid sha ⟨bc2.chain ++ [nb]⟩ =
              validFrom sha p (l ++ [nb]) := by
            rw [show (⟨bc2.chain ++ [nb]⟩ : Blockchain) = ⟨(p :: l) ++ [nb]⟩ by rw [hchain]]
            rfl
          rw [this, validFrom_append]
          rw [Bool.and_eq_true]
          exact ⟨hv', hck⟩
        · refine ⟨ts0, ?_⟩
          show (bc2.chain ++ [nb]).head? = _
          rw [hchain]
          rw [hchain] at hh
          simpa using hh
  refine ⟨main.1, main.2, ?_⟩
  intro i h h1
  have hc := (is_valid_checks_iff sha bc).mp main.1 i h h1
  exact ((checkBlock_eq_true_iff sha _ _).mp hc).2.1

/-- Witness for C5 at the concrete chain built by one genesis creation
and one successful append. -/
theorem reachable_is_valid_witness :
    wChain2.is_valid sha0 = true :=
  (reachable_is_valid sha0 wChain2
    (@Reachable.appended sha0 wChain1 wChain2 wB1 1 "101.5" (Json.num 7)
      (Reachable.created "100.5") rfl)).1

/-- C6: `compute_hash` serializes the five fields with map keys sorted,
so two payload objects that hold the same key-value pairs but were
built with keys inserted in different orders (keys pairwise distinct,
as in a Python dict) yield identical hashes for blocks identical in all
other fields. -/
theorem compute_hash_key_order (sha : String → String) (b : Block)
    (kvs1 kvs2 : List (String × Json)) (hp : List.Perm kvs1 kvs2)
    (hn : (kvs1.map Prod.fst).Nodup) :
    compute_hash sha { b with data := .obj kvs1 } =
      compute_hash sha { b with data := .obj kvs2 } := by
  have h1 : serializeBlock { b with data := Json.obj kvs1 } =
      "\x7b\"data\": " ++ (Json.obj kvs1).dumps ++ serializeTail b := rfl
  have h2 : serializeBlock { b with data := Json.obj kvs2 } =
      "\x7b\"data\": " ++ (Json.obj kvs2).dumps ++ serializeTail b := rfl
  show sha (serializeBlock { b with data := Json.obj kvs1 }) =
    sha (serializeBlock { b with data := Json.obj kvs2 })
  rw [h1, h2, dumps_obj_perm hp hn]

/-- Witness for C6: the same two-entry mapping inserted in the two
possible orders hashes identically. -/
theorem compute_hash_key_order_witness :
    compute_hash sha0 { wG with data := Json.obj [("b", Json.num 1), ("a", Json.num 2)] } =
      compute_hash sha0 { wG with data := Json.obj [("a", Json.num 2), ("b", Json.num 1)] } :=
  compute_hash_key_order sha0 wG _ _ (List.Perm.swap _ _ _) (by decide)

/-- C2: on a valid chain of at least two blocks, replacing the stored
payload of any non-genesis block by one whose canonical serialization
differs, without recomputing that block's hash, makes `is_valid` return
false afterward.  The first hypothesis is the idealisation of the
SHA-256 digest as collision-free (the spec's "cryptographic hash
property"); the conclusion is exact for every collision-free digest. -/
theorem tamper_detected (sha : String → String)
    (hinj : ∀ s t, sha s = sha t → s = t)
    (bc : Blockchain) (j : Nat) (d' : Json)
    (hv : bc.is_valid sha = true) (hlen : 2 ≤ bc.chain.length)
    (h1 : 1 ≤ j) (hj : j < bc.chain.length)
    (hd : Json.dumps d' ≠ Json.dumps (bc.chain.get ⟨j, hj⟩).data) :
    (bc.setData j d').is_valid sha = false := by
  have hhash : (bc.chain.get ⟨j, hj⟩).hash =
      compute_hash sha (bc.chain.get ⟨j, hj⟩) :=
    ((checkBlock_eq_true_iff sha _ _).mp
      ((is_valid_checks_iff sha bc).mp hv j hj h1)).1
  by_contra hne
  have hvt : (bc.setData j d').is_valid sha = true := by
    cases hb : (bc.setData j d').is_valid sha
    · exact absurd hb hne
    · rfl
  have hlen' : j < (bc.setData j d').chain.length := by
    show j < (setDataAux d' j bc.chain).length
    rw [setDataAux_length]
    exact hj
  have hcheck := (is_valid_checks_iff sha _).mp hvt j hlen' h1
  have hget : (bc.setData j d').chain.get ⟨j, hlen'⟩ =
      { bc.chain.get ⟨j, hj⟩ with data := d' } :=
    setDataAux_get_self d' bc.chain j hj hlen'
  rw [hget] at hcheck
  have hfirst : ({ bc.chain.get ⟨j, hj⟩ with data := d' } : Block).hash =
      compute_hash sha { bc.chain.get ⟨j, hj⟩ with data := d' } :=
    ((checkBlock_eq_true_iff sha _ _).mp hcheck).1
  have hcomp : compute_hash sha (bc.chain.get ⟨j, hj⟩) =
      compute_hash sha { bc.chain.get ⟨j, hj⟩ with data := d' } := by
    rw [← hhash]
    exact hfirst
  have hser : "\x7b\"data\": " ++ (bc.chain.get ⟨j, hj⟩).data.dumps ++
        serializeTail (bc.chain.get ⟨j, hj⟩) =
      "\x7b\"data\": " ++ Json.dumps d' ++
        serializeTail (bc.chain.get ⟨j, hj⟩) :=
    hinj _ _ hcomp
  exact hd (string_append_cancel_mid hser).symm

/-- Witness for C2: nulling out the payload of block 1 of the concrete
valid two-block chain flips validation to false. -/
theorem tamper_detected_witness :
    wChain2.is_valid sha0 = true ∧
    (wChain2.setData 1 Json.null).is_valid sha0 = false :=
  ⟨by decide,
   tamper_detected sha0 sha0_inj wChain2 1 Json.null (by decide) (by decide)
     (by decide) (by decide) (by decide)⟩
